import Mathlib

/-!
# Verification of the Huffman text compressor (`src/main.cpp`)

Shallow embedding of the codec implemented in `main.cpp`:
frequency counting, Huffman-tree construction over a min-priority
queue, code generation, bit packing via `stringstream >> bitset<8>`,
code-table serialization/parsing, and prefix-scan decoding.

Modelling conventions:
* A symbol (`char`) is one byte, `Byte := Fin 256`; the newline byte is 10.
* Frequencies are C++ `unsigned` (32 bits): every increment and every
  weight sum is taken `% 4294967296`.
* `std::unordered_map` iteration order is not specified by the source;
  wherever the program iterates a hash map to seed the priority queue,
  the embedding takes that iteration order as an explicit list parameter
  (`ord`, a permutation of the frequency-table entries).
* `std::priority_queue` with `CompareNodes` is a min-queue on
  `frequency`; the embedding keeps the queue as a list, `push` appends
  and `pop` removes the first node of minimal frequency.  The concrete
  tie-break among equal frequencies inside the C++ binary heap is not
  determined by the source; the queue-order tie-break here is the
  concrete stand-in.
* The `while (priorityQueue.size() != 1)` loop shrinks the queue by one
  node per iteration, so the initial queue length bounds the number of
  iterations; the loop is embedded with that length as fuel.
* Bit strings written as C++ `'0'`/`'1'` characters are `List Bool` on
  the encoder side; on the decoder side (where arbitrary file bytes can
  occur as codeword keys) they are `List Byte` with `48`/`49` for
  `'0'`/`'1'`.
-/

abbrev Byte := Fin 256

/-- The newline character `'\n'`, forced into every frequency table. -/
def newlineByte : Byte := 10

/-- The synthetic marker `'$'` stored in internal tree nodes. -/
def dollarByte : Byte := 36

/-- Lookup in an association list, mirroring `unordered_map::find` /
`::at` (first matching key wins; keys are unique in all maps the
program builds). -/
def mapLookup {κ ν : Type} [DecidableEq κ] : List (κ × ν) → κ → Option ν
  | [], _ => none
  | (k0, v0) :: rest, k => if k0 = k then some v0 else mapLookup rest k

/-- `m[k] = v` on an `unordered_map`: overwrite the stored value if the
key is present, otherwise add the entry. -/
def mapInsert {κ ν : Type} [DecidableEq κ] : List (κ × ν) → κ → ν → List (κ × ν)
  | [], k, v => [(k, v)]
  | (k0, v0) :: rest, k, v =>
      if k0 = k then (k0, v) :: rest else (k0, v0) :: mapInsert rest k v

/-- `charFrequencyMap[ch]++` (main.cpp line 82/84): `operator[]`
default-constructs the `unsigned` count at 0 on a missing key, then the
increment wraps at `2^32`. -/
def bumpFreq : List (Byte × Nat) → Byte → List (Byte × Nat)
  | [], c => [(c, (0 + 1) % 4294967296)]
  | (k, v) :: rest, c =>
      if k = c then (k, (v + 1) % 4294967296) :: rest else (k, v) :: bumpFreq rest c

/-- The frequency table built at main.cpp lines 80-84: count every input
byte, then increment the newline entry once. -/
def charFrequencyMap (inputText : List Byte) : List (Byte × Nat) :=
  bumpFreq (inputText.foldl bumpFreq []) newlineByte

/-- `TreeNode` (main.cpp lines 18-28): `nil` is the null pointer, and
every allocated node carries a character, an `unsigned` frequency and
two child pointers.  Leaves are nodes whose both children are `nil`. -/
inductive CTree : Type where
  | nil : CTree
  | node (character : Byte) (frequency : Nat) (left right : CTree) : CTree
deriving DecidableEq

/-- The frequency field read by `CompareNodes` (never read on `nil`,
which stands for a null pointer). -/
def treeFreq : CTree → Nat
  | CTree.nil => 0
  | CTree.node _ f _ _ => f

/-- Pop from the min-priority queue: remove the first node of minimal
`frequency` in queue order (`CompareNodes`, main.cpp lines 35-41, orders
by `frequency` only, so equal-frequency ties fall back to queue order in
this embedding).  The `[]` case is unreachable: the program only pops
while the queue holds at least one node. -/
def popMin : List CTree → CTree × List CTree
  | [] => (CTree.nil, [])
  | [t] => (t, [])
  | t :: rest =>
      let p := popMin rest
      if treeFreq t ≤ treeFreq p.1 then (t, rest) else (p.1, t :: p.2)

/-- One pass seeds the queue with a leaf per frequency-table entry
(main.cpp lines 86-87); `ord` is the `unordered_map` iteration order. -/
def seedQueue (ord : List (Byte × Nat)) : List CTree :=
  ord.map (fun p => CTree.node p.1 p.2 CTree.nil CTree.nil)

/-- The `while (priorityQueue.size() != 1)` loop (main.cpp lines
89-97): pop the two lowest-frequency nodes (first popped becomes the
left child), push an internal `'$'` node whose `unsigned` weight is
their wrapped sum.  The fuel argument bounds the iteration count; each
iteration shrinks the queue by one node, so a fuel equal to the initial
queue length never runs out (the `0, _ :: _ :: _` case is unreachable
from `huffmanTree`). -/
def buildLoop : Nat → List CTree → CTree
  | _, [] => CTree.nil
  | _, [t] => t
  | 0, _ :: _ :: _ => CTree.nil
  | n + 1, a :: b :: rest =>
      let l := popMin (a :: b :: rest)
      let r := popMin l.2
      buildLoop n (r.2 ++ [CTree.node dollarByte ((treeFreq l.1 + treeFreq r.1) % 4294967296) l.1 r.1])

/-- The Huffman tree built from the seeded queue. -/
def huffmanTree (ord : List (Byte × Nat)) : CTree :=
  buildLoop (seedQueue ord).length (seedQueue ord)

/-- `GenerateHuffmanCodes` (main.cpp lines 47-57): recursive traversal;
a node with two null children stores the accumulated path string under
its character; recursion appends `"0"` on the left and `"1"` on the
right. -/
def GenerateHuffmanCodes : CTree → List Bool → List (Byte × List Bool) → List (Byte × List Bool)
  | CTree.nil, _, m => m
  | CTree.node c _ l r, str, m =>
      let m1 := if l = CTree.nil ∧ r = CTree.nil then mapInsert m c str else m
      let m2 := GenerateHuffmanCodes l (str ++ [false]) m1
      GenerateHuffmanCodes r (str ++ [true]) m2

/-- The code table of one compression run whose hash-map iteration
order is `ord` (main.cpp lines 99-100). -/
def huffmanCodeMap (ord : List (Byte × Nat)) : List (Byte × List Bool) :=
  GenerateHuffmanCodes (huffmanTree ord) [] []

/-- Value of a `bitset` built from a string of `'0'`/`'1'` characters:
the first character is the most significant of the given bits. -/
def bitsToNat (l : List Bool) : Nat :=
  l.foldl (fun acc b => 2 * acc + (if b then 1 else 0)) 0

/-- The loop state of `WriteEncodedStringToFile` (main.cpp lines 62-72):
`sstream >> bits` extracts up to 8 characters.  A full group of 8 leaves
the stream good and the next iteration runs; a shorter non-empty group
hits end-of-stream (the extracted bits land in the LOW positions of the
byte, high bits zero) and the loop stops after writing; an empty
extraction fails, leaves the `bitset` unchanged (second argument: the
previously written byte, initially the default-constructed 0) and the
loop still writes that stale byte before stopping. -/
def packLoop : List Bool → Nat → List Nat
  | a :: b :: c :: d :: e :: f :: g :: h :: rest, _ =>
      bitsToNat [a, b, c, d, e, f, g, h] ::
        packLoop rest (bitsToNat [a, b, c, d, e, f, g, h])
  | [], prev => [prev]
  | s, _ => [bitsToNat s]

/-- `WriteEncodedStringToFile` (main.cpp lines 62-72) as the byte
sequence written to the output file. -/
def WriteEncodedStringToFile (encodedString : List Bool) : List Nat :=
  packLoop encodedString 0

/-- The encoded bit string (main.cpp lines 112-113):
`encodedString += huffmanCodeMap[ch]` for each input byte.  All input
bytes are keys of the map; `operator[]` would yield `""` otherwise. -/
def encodedString (ord : List (Byte × Nat)) (inputText : List Byte) : List Bool :=
  (inputText.map (fun ch => (mapLookup (huffmanCodeMap ord) ch).getD [])).flatten

/-- One line of the `.huff` code file (main.cpp lines 103-109): the
newline symbol is escaped as backslash (92) then letter n (110), every
other symbol is its
literal byte, followed by `':'` (58) and the `'0'`/`'1'` characters of
the codeword. -/
def serializeCodeLine (e : Byte × List Bool) : List Byte :=
  (if e.1 = newlineByte then [92, 110] else [e.1]) ++ [58] ++
    e.2.map (fun b => if b then (49 : Byte) else 48)

/-- The `.huff` artifact as its list of lines. -/
def codeFileLines (codes : List (Byte × List Bool)) : List (List Byte) :=
  codes.map serializeCodeLine

/-- One iteration of the code-file parse loop in `DecodeFile`
(main.cpp lines 172-183).  `line.find(':')` is `npos` when the
separator is missing; then `substr(0, npos)` is the whole line and
`substr(npos + 1)` wraps to `substr(0)`, the whole line again, so the
malformed line is inserted as a codeword, not rejected.  `symbol[0]` on
the empty symbol (a line starting with `':'`) reads the terminating
null character, byte 0. -/
def parseLine (m : List (List Byte × Byte)) (line : List Byte) : List (List Byte × Byte) :=
  if line = [] then m
  else
    let i := line.indexOf 58
    let symbol := line.take i
    let code := if i = line.length then line else line.drop (i + 1)
    if symbol = [92, 110] then mapInsert m code newlineByte
    else mapInsert m code (symbol.headD 0)

/-- The codeword-to-symbol map read from the `.huff` file lines
(main.cpp lines 169-184). -/
def parseHuffLines (lines : List (List Byte)) : List (List Byte × Byte) :=
  lines.foldl parseLine []

/-- `Decode`'s scan (main.cpp lines 133-142): append each `'0'`/`'1'`
character to `temp`; on an exact map hit emit the symbol and reset
`temp`.  When the characters run out, any non-empty unmatched `temp` is
dropped without any error indication (the function just returns). -/
def decodeLoop (huffmanCodes : List (List Byte × Byte)) : List Byte → List Byte → List Byte
  | [], _ => []
  | ch :: rest, temp =>
      match mapLookup huffmanCodes (temp ++ [ch]) with
      | some sym => sym :: decodeLoop huffmanCodes rest []
      | none => decodeLoop huffmanCodes rest (temp ++ [ch])

/-- `Decode` (main.cpp lines 133-142). -/
def Decode (encodedStr : List Byte) (huffmanCodes : List (List Byte × Byte)) : List Byte :=
  decodeLoop huffmanCodes encodedStr []

/-- `bitset<8>(byte).to_string()` (main.cpp lines 156-160): the 8 bits
of one byte, most significant first. -/
def byteBits (n : Nat) : List Bool :=
  [n.testBit 7, n.testBit 6, n.testBit 5, n.testBit 4,
   n.testBit 3, n.testBit 2, n.testBit 1, n.testBit 0]

/-- The logical bit sequence `DecodeBinaryFile` reconstitutes from the
packed bytes. -/
def unpackBits (bytes : List Nat) : List Bool :=
  (bytes.map byteBits).flatten

/-- `DecodeBinaryFile` (main.cpp lines 148-162): expand every byte of
the packed file into its 8 `'0'`/`'1'` characters, then run `Decode`. -/
def DecodeBinaryFile (bytes : List Nat) (huffmanCodes : List (List Byte × Byte)) : List Byte :=
  Decode ((unpackBits bytes).map (fun b => if b then (49 : Byte) else 48)) huffmanCodes

/-- `DecodeFile` (main.cpp lines 168-189): parse the `.huff` lines,
then decode the packed bytes. -/
def DecodeFile (huffLines : List (List Byte)) (bytes : List Nat) : List Byte :=
  DecodeBinaryFile bytes (parseHuffLines huffLines)

/-- Sum of the stored counts of a frequency table. -/
def sumVals (m : List (Byte × Nat)) : Nat :=
  (m.map Prod.snd).sum

/-- Weighted path length of a code table against a frequency table:
sum over table entries of frequency times codeword length (exact
arithmetic, matching the definition given in the specification). -/
def weightedPathLength (freqs : List (Byte × Nat)) (codes : List (Byte × List Bool)) : Nat :=
  (freqs.map (fun p => p.2 * ((mapLookup codes p.1).getD []).length)).sum

/-- The traversal order and root-relative path of every assignment
`GenerateHuffmanCodes` performs on a tree (proof helper). -/
def paths : CTree → List (Byte × List Bool)
  | CTree.nil => []
  | CTree.node c _ l r =>
      (if l = CTree.nil ∧ r = CTree.nil then [(c, ([] : List Bool))] else [])
        ++ (paths l).map (fun e => (e.1, false :: e.2))
        ++ (paths r).map (fun e => (e.1, true :: e.2))

/-- The alternative code table used against claim C6: the balanced
two-bit prefix code on the four symbols `a b c d`. -/
def balancedAltCodes : List (Byte × List Bool) :=
  [(97, [false, false]), (98, [false, true]), (99, [true, false]), (100, [true, true])]


/-! ## Lemmas about the bit packer -/

theorem bitsToNat_false_cons (l : List Bool) : bitsToNat (false :: l) = bitsToNat l := rfl

theorem bitsToNat_replicate_false_append (m : Nat) (l : List Bool) :
    bitsToNat (List.replicate m false ++ l) = bitsToNat l := by
  induction m with
  | zero => rfl
  | succ n ih => simpa [List.replicate_succ] using ih

theorem byteBits_bitsToNat_eight (a b c d e f g h : Bool) :
    byteBits (bitsToNat [a, b, c, d, e, f, g, h]) = [a, b, c, d, e, f, g, h] := by
  revert a b c d e f g h
  decide

theorem byteBits_bitsToNat_len8 (l : List Bool) (hl : l.length = 8) :
    byteBits (bitsToNat l) = l := by
  rcases l with _ | ⟨a, _ | ⟨b, _ | ⟨c, _ | ⟨d, _ | ⟨e, _ | ⟨f, _ | ⟨g, _ | ⟨h, t⟩⟩⟩⟩⟩⟩⟩⟩ <;>
    simp only [List.length_nil, List.length_cons] at hl <;> try omega
  have ht : t = [] := List.eq_nil_of_length_eq_zero (by omega)
  subst ht
  exact byteBits_bitsToNat_eight a b c d e f g h

theorem byteBits_bitsToNat_short (l : List Bool) (hl : l.length ≤ 8) :
    byteBits (bitsToNat l) = List.replicate (8 - l.length) false ++ l := by
  have h8 : (List.replicate (8 - l.length) false ++ l).length = 8 := by
    simp [List.length_append, List.length_replicate]
    omega
  calc byteBits (bitsToNat l)
      = byteBits (bitsToNat (List.replicate (8 - l.length) false ++ l)) := by
        rw [bitsToNat_replicate_false_append]
    _ = List.replicate (8 - l.length) false ++ l := byteBits_bitsToNat_len8 _ h8

theorem unpackBits_cons (b : Nat) (rest : List Nat) :
    unpackBits (b :: rest) = byteBits b ++ unpackBits rest := by
  simp [unpackBits]

theorem packLoop_length : ∀ (s : List Bool) (prev : Nat),
    (packLoop s prev).length = s.length / 8 + 1
  | a :: b :: c :: d :: e :: f :: g :: h :: rest, prev => by
      have ih := packLoop_length rest (bitsToNat [a, b, c, d, e, f, g, h])
      simp only [packLoop, List.length_cons, ih]
      omega
  | [], _ => by simp [packLoop]
  | [_], _ => by simp [packLoop]
  | [_, _], _ => by simp [packLoop]
  | [_, _, _], _ => by simp [packLoop]
  | [_, _, _, _], _ => by simp [packLoop]
  | [_, _, _, _, _], _ => by simp [packLoop]
  | [_, _, _, _, _, _], _ => by simp [packLoop]
  | [_, _, _, _, _, _, _], _ => by simp [packLoop]

theorem packLoop_dup : ∀ (s : List Bool) (prev : Nat), s ≠ [] → s.length % 8 = 0 →
    ∃ bs b, packLoop s prev = bs ++ [b, b]
  | a :: b :: c :: d :: e :: f :: g :: h :: rest, prev, _, hmod => by
      rcases Decidable.em (rest = []) with hr | hr
      · subst hr
        exact ⟨[], bitsToNat [a, b, c, d, e, f, g, h], rfl⟩
      · have hmod8 : rest.length % 8 = 0 := by
          simp only [List.length_cons] at hmod
          omega
        obtain ⟨bs, bb, hbs⟩ :=
          packLoop_dup rest (bitsToNat [a, b, c, d, e, f, g, h]) hr hmod8
        exact ⟨bitsToNat [a, b, c, d, e, f, g, h] :: bs, bb, by simp [packLoop, hbs]⟩
  | [], _, hne, _ => absurd rfl hne
  | [_], _, _, hmod => by simp at hmod
  | [_, _], _, _, hmod => by simp at hmod
  | [_, _, _], _, _, hmod => by simp at hmod
  | [_, _, _, _], _, _, hmod => by simp at hmod
  | [_, _, _, _, _], _, _, hmod => by simp at hmod
  | [_, _, _, _, _, _], _, _, hmod => by simp at hmod
  | [_, _, _, _, _, _, _], _, _, hmod => by simp at hmod

theorem unpack_packLoop_nil (prev : Nat) :
    unpackBits (packLoop [] prev) = byteBits prev := by
  simp [packLoop, unpackBits]

theorem unpack_packLoop_multiple : ∀ (s : List Bool) (prev : Nat), s ≠ [] →
    s.length % 8 = 0 → unpackBits (packLoop s prev) = s ++ s.drop (s.length - 8)
  | a :: b :: c :: d :: e :: f :: g :: h :: rest, prev, _, hmod => by
      have hby := byteBits_bitsToNat_eight a b c d e f g h
      rcases Decidable.em (rest = []) with hr | hr
      · subst hr
        simp [packLoop, unpackBits, hby]
      · have hlen : rest.length % 8 = 0 := by
          simp only [List.length_cons] at hmod
          omega
        have h8 : 8 ≤ rest.length := by
          have := List.length_pos.mpr hr
          omega
        have ih := unpack_packLoop_multiple rest (bitsToNat [a, b, c, d, e, f, g, h]) hr hlen
        have hs : (a :: b :: c :: d :: e :: f :: g :: h :: rest)
            = [a, b, c, d, e, f, g, h] ++ rest := rfl
        simp only [packLoop, unpackBits_cons, ih, hby, hs]
        have hlen2 : ([a, b, c, d, e, f, g, h] ++ rest).length - 8
            = ([a, b, c, d, e, f, g, h] : List Bool).length + (rest.length - 8) := by
          simp only [List.length_append, List.length_cons, List.length_nil]
          omega
        rw [hlen2, List.drop_append, List.append_assoc]
  | [], _, hne, _ => absurd rfl hne
  | [_], _, _, hmod => by simp at hmod
  | [_, _], _, _, hmod => by simp at hmod
  | [_, _, _], _, _, hmod => by simp at hmod
  | [_, _, _, _], _, _, hmod => by simp at hmod
  | [_, _, _, _, _], _, _, hmod => by simp at hmod
  | [_, _, _, _, _, _], _, _, hmod => by simp at hmod
  | [_, _, _, _, _, _, _], _, _, hmod => by simp at hmod

theorem unpack_packLoop_short : ∀ (s : List Bool) (prev : Nat), s.length % 8 ≠ 0 →
    unpackBits (packLoop s prev)
      = s.take (s.length - s.length % 8) ++ List.replicate (8 - s.length % 8) false
          ++ s.drop (s.length - s.length % 8)
  | a :: b :: c :: d :: e :: f :: g :: h :: rest, prev, hmod => by
      have hby := byteBits_bitsToNat_eight a b c d e f g h
      have hlen : rest.length % 8 ≠ 0 := by
        simp only [List.length_cons] at hmod
        omega
      have ih := unpack_packLoop_short rest (bitsToNat [a, b, c, d, e, f, g, h]) hlen
      have hs : (a :: b :: c :: d :: e :: f :: g :: h :: rest)
          = [a, b, c, d, e, f, g, h] ++ rest := rfl
      simp only [packLoop, unpackBits_cons, ih, hby, hs]
      have e1 : ([a, b, c, d, e, f, g, h] ++ rest).length % 8 = rest.length % 8 := by
        simp only [List.length_append, List.length_cons, List.length_nil]
        omega
      have e2 : ([a, b, c, d, e, f, g, h] ++ rest).length - rest.length % 8
          = ([a, b, c, d, e, f, g, h] : List Bool).length + (rest.length - rest.length % 8) := by
        simp only [List.length_append, List.length_cons, List.length_nil]
        have := Nat.mod_le rest.length 8
        omega
      rw [e1, e2, List.take_append, List.drop_append]
      simp [List.append_assoc]
  | [], _, hmod => by simp at hmod
  | [a], prev, _ => by
      have h := byteBits_bitsToNat_short [a] (by simp)
      simp [packLoop, unpackBits, h]
  | [a, b], prev, _ => by
      have h := byteBits_bitsToNat_short [a, b] (by simp)
      simp [packLoop, unpackBits, h]
  | [a, b, c], prev, _ => by
      have h := byteBits_bitsToNat_short [a, b, c] (by simp)
      simp [packLoop, unpackBits, h]
  | [a, b, c, d], prev, _ => by
      have h := byteBits_bitsToNat_short [a, b, c, d] (by simp)
      simp [packLoop, unpackBits, h]
  | [a, b, c, d, e], prev, _ => by
      have h := byteBits_bitsToNat_short [a, b, c, d, e] (by simp)
      simp [packLoop, unpackBits, h]
  | [a, b, c, d, e, f], prev, _ => by
      have h := byteBits_bitsToNat_short [a, b, c, d, e, f] (by simp)
      simp [packLoop, unpackBits, h]
  | [a, b, c, d, e, f, g], prev, _ => by
      have h := byteBits_bitsToNat_short [a, b, c, d, e, f, g] (by simp)
      simp [packLoop, unpackBits, h]

/-! ## Claim theorems: bit packer and unpacker -/

/-- Claim C10: for an encoded bit sequence of length n the packer writes
exactly n / 8 + 1 bytes, so the packed stream is never empty; for n = 0
it writes the single byte 0, and when n is a positive multiple of 8 the
final failed extraction leaves the bitset unchanged, so the last written
byte duplicates the previous data byte. -/
theorem c10_packed_stream_shape (s : List Bool) :
    (WriteEncodedStringToFile s).length = s.length / 8 + 1
  ∧ WriteEncodedStringToFile s ≠ []
  ∧ (s = [] → WriteEncodedStringToFile s = [0])
  ∧ (s ≠ [] → s.length % 8 = 0 → ∃ bs b, WriteEncodedStringToFile s = bs ++ [b, b]) := by
  refine ⟨packLoop_length s 0, ?_, ?_, ?_⟩
  · intro h
    have hlen := packLoop_length s 0
    rw [show WriteEncodedStringToFile s = packLoop s 0 from rfl] at h
    rw [h] at hlen
    simp at hlen
  · intro h
    subst h
    simp [WriteEncodedStringToFile, packLoop]
  · intro h1 h2
    exact packLoop_dup s 0 h1 h2

/-- Claim C10 witness: at the 8-bit input `11111111` the packer writes
2 bytes and the last byte duplicates the data byte. -/
theorem c10_packed_stream_shape_witness :
    (WriteEncodedStringToFile (List.replicate 8 true)).length = 2
  ∧ (∃ bs b, WriteEncodedStringToFile (List.replicate 8 true) = bs ++ [b, b]) := by
  have h := c10_packed_stream_shape (List.replicate 8 true)
  refine ⟨?_, h.2.2.2 (by decide) (by decide)⟩
  rw [h.1]
  decide

/-- Claim C2 (counterexample): the packer does not put the leftover bits
of a partial final byte in its high positions.  Packing the single bit 1
yields the byte 1 (bit in the LOW position), not the byte 128 the claim
describes, and unpacking does not reconstitute the packed bit sequence
followed by padding. -/
theorem c2_counterexample :
    WriteEncodedStringToFile [true] = [1]
  ∧ WriteEncodedStringToFile [true] ≠ [128]
  ∧ unpackBits (WriteEncodedStringToFile [true]) ≠ [true] ++ List.replicate 7 false := by
  decide

/-- Claim C2 (amended): full 8-bit groups are packed most significant
bit first, but a partial final group of k bits lands in the LOW k bits
of the final byte (high bits zero); an empty bit sequence produces the
single byte 0, and a positive multiple of 8 produces a duplicated final
byte.  Expanding the bytes most-significant-bit-first therefore yields
the full groups, then 8-k zero bits, then the final k bits (or, in the
other cases, 8 zero bits, resp. the sequence plus a repeat of its last
8 bits). -/
theorem c2_pack_unpack_amended (s : List Bool) :
    (s.length % 8 ≠ 0 →
      unpackBits (WriteEncodedStringToFile s)
        = s.take (s.length - s.length % 8) ++ List.replicate (8 - s.length % 8) false
            ++ s.drop (s.length - s.length % 8))
  ∧ (s = [] → unpackBits (WriteEncodedStringToFile s) = List.replicate 8 false)
  ∧ (s ≠ [] → s.length % 8 = 0 →
      unpackBits (WriteEncodedStringToFile s) = s ++ s.drop (s.length - 8)) := by
  refine ⟨fun h => unpack_packLoop_short s 0 h, fun h => ?_,
    fun h1 h2 => unpack_packLoop_multiple s 0 h1 h2⟩
  subst h
  rw [show WriteEncodedStringToFile [] = packLoop [] 0 from rfl, unpack_packLoop_nil]
  decide

/-- Claim C2 amended witness: the single bit 1 unpacks to seven zero
bits followed by that bit. -/
theorem c2_pack_unpack_amended_witness :
    unpackBits (WriteEncodedStringToFile [true]) = List.replicate 7 false ++ [true] := by
  have h := (c2_pack_unpack_amended [true]).1 (by decide)
  simpa using h

/-! ## Claim theorems: concrete failures of the codec -/

/-- Claim C1: round-trip fails on the single-character input "a".  The
frequency table is {a:1, newline:1}; under either iteration order of
that two-entry hash map, the decoder re-expands the one packed byte to
8 bits and emits 8 symbols, so decompress(compress("a")) has length 8
and is not "a". -/
theorem c1_roundtrip_fails :
    charFrequencyMap [97] = [(97, 1), (10, 1)]
  ∧ DecodeFile (codeFileLines (huffmanCodeMap [(97, 1), (10, 1)]))
      (WriteEncodedStringToFile (encodedString [(97, 1), (10, 1)] [97])) ≠ [97]
  ∧ DecodeFile (codeFileLines (huffmanCodeMap [(10, 1), (97, 1)]))
      (WriteEncodedStringToFile (encodedString [(10, 1), (97, 1)] [97])) ≠ [97] := by
  decide

/-- Claim C3: on empty input the frequency table is the single entry
{newline:1}, the tree is the lone leaf, and `GenerateHuffmanCodes`
assigns the newline symbol the EMPTY codeword — not a non-empty one as
the claim states. -/
theorem c3_single_symbol_empty_code :
    charFrequencyMap [] = [(10, 1)]
  ∧ mapLookup (huffmanCodeMap [(10, 1)]) 10 = some [] := by
  decide

/-- Claim C6: the tree built from the four-symbol frequency table with
all weights 2^31 is NOT of minimal weighted path length.  The 32-bit
weight of the first merged pair wraps to 0, so the builder produces a
degenerate chain (depths 1,2,3,3; weighted path length 9·2^31) while
the balanced two-bit prefix-free code reaches 8·2^31. -/
theorem c6_overflow_defeats_optimality :
    weightedPathLength [(97, 2147483648), (98, 2147483648), (99, 2147483648), (100, 2147483648)]
      (huffmanCodeMap [(97, 2147483648), (98, 2147483648), (99, 2147483648), (100, 2147483648)])
      = 19327352832
  ∧ weightedPathLength [(97, 2147483648), (98, 2147483648), (99, 2147483648), (100, 2147483648)]
      balancedAltCodes = 17179869184
  ∧ List.Pairwise (fun x y => x.1 ≠ y.1 ∧ ¬ x.2 <+: y.2 ∧ ¬ y.2 <+: x.2) balancedAltCodes
  ∧ (∀ p ∈ [((97 : Byte), 2147483648), (98, 2147483648), (99, 2147483648), (100, 2147483648)],
        (mapLookup balancedAltCodes p.1).isSome ∧ (mapLookup balancedAltCodes p.1).getD [] ≠ [])
  ∧ 17179869184 < 19327352832 := by
  decide

/-- Claim C7: the code-table parser accepts the separator-free line
"abc" instead of rejecting it: `find(':')` returns npos, `substr(0,
npos)` and `substr(npos + 1)` both produce the whole line, and the
parser silently records the bogus mapping "abc" -> 'a'. -/
theorem c7_malformed_line_accepted :
    parseHuffLines [[97, 98, 99]] = [([97, 98, 99], 97)] := by
  decide

/-- Claim C8: decoding the packed byte 0x80 against the table
{"11" -> 'a'} leaves the accumulated candidate "10000000" unmatched
when the bits run out; `Decode` simply returns the empty output with no
failure indication, silently discarding the unmatched tail. -/
theorem c8_unmatched_tail_silently_dropped :
    DecodeFile [[97, 58, 49, 49]] [128] = [] := by
  decide

/-- Claim C9 (counterexample): both lists are iteration orders
(permutations) of the frequency table of the input "ab", yet seeding
the priority queue in these two orders produces different packed
streams (byte 11 vs byte 14): the equal-weight tie-break depends on the
unordered_map iteration order. -/
theorem c9_counterexample :
    List.Perm [((97 : Byte), 1), (98, 1), (10, 1)] (charFrequencyMap [97, 98])
  ∧ List.Perm [((98 : Byte), 1), (97, 1), (10, 1)] (charFrequencyMap [97, 98])
  ∧ WriteEncodedStringToFile (encodedString [(97, 1), (98, 1), (10, 1)] [97, 98])
      ≠ WriteEncodedStringToFile (encodedString [(98, 1), (97, 1), (10, 1)] [97, 98]) := by
  decide

/-- Claim C9 (amended): compression is a deterministic function of the
input together with the hash-map iteration order — re-running with the
same order reproduces both artifacts bit for bit — but the equal-weight
tie-break does depend on that iteration order: two permutations of the
same frequency table can yield different packed output. -/
theorem c9_deterministic_only_given_order :
    (∀ (ord : List (Byte × Nat)) (inputText : List Byte),
        WriteEncodedStringToFile (encodedString ord inputText)
          = WriteEncodedStringToFile (encodedString ord inputText)
      ∧ codeFileLines (huffmanCodeMap ord) = codeFileLines (huffmanCodeMap ord))
  ∧ (∃ ord1 ord2 : List (Byte × Nat),
        List.Perm ord1 (charFrequencyMap [97, 98])
      ∧ List.Perm ord2 (charFrequencyMap [97, 98])
      ∧ WriteEncodedStringToFile (encodedString ord1 [97, 98])
          ≠ WriteEncodedStringToFile (encodedString ord2 [97, 98])) := by
  refine ⟨fun ord inputText => ⟨rfl, rfl⟩,
    ⟨[(97, 1), (98, 1), (10, 1)], [(98, 1), (97, 1), (10, 1)], ?_, ?_, ?_⟩⟩
  · decide
  · decide
  · decide

/-! ## Lemmas about the frequency counter -/

theorem mapLookup_bumpFreq (m : List (Byte × Nat)) (c k : Byte) :
    mapLookup (bumpFreq m c) k =
      if k = c then some (((mapLookup m c).getD 0 + 1) % 4294967296)
      else mapLookup m k := by
  induction m with
  | nil =>
      by_cases h : k = c
      · subst h
        simp [bumpFreq, mapLookup]
      · have h2 : ¬ c = k := fun hh => h hh.symm
        simp [bumpFreq, mapLookup, h, h2]
  | cons hd rest ih =>
      obtain ⟨k0, v0⟩ := hd
      by_cases h0 : k0 = c
      · subst h0
        by_cases h : k0 = k
        · subst h
          simp [bumpFreq, mapLookup]
        · have h2 : ¬ k = k0 := fun hh => h hh.symm
          simp [bumpFreq, mapLookup, h, h2]
      · by_cases h : k0 = k
        · subst h
          simp [bumpFreq, mapLookup, h0]
        · simp [bumpFreq, mapLookup, h0, h, ih]

theorem mapLookup_foldl_bumpFreq : ∀ (inputText : List Byte) (m : List (Byte × Nat)) (k : Byte),
    (∀ v, mapLookup m k = some v → v < 4294967296) →
    mapLookup (inputText.foldl bumpFreq m) k =
      (if k ∈ inputText ∨ (mapLookup m k).isSome
       then some (((mapLookup m k).getD 0 + inputText.count k) % 4294967296)
       else none)
  | [], m, k, hv => by
      cases hm : mapLookup m k with
      | none => simp [hm]
      | some v => simp [hm, Nat.mod_eq_of_lt (hv v hm)]
  | c :: rest, m, k, hv => by
      have hb := mapLookup_bumpFreq m c k
      rw [List.foldl_cons]
      by_cases hkc : k = c
      · subst hkc
        have hv2 : ∀ v, mapLookup (bumpFreq m k) k = some v → v < 4294967296 := by
          intro v hvv
          rw [hb, if_pos rfl] at hvv
          cases hvv
          exact Nat.mod_lt _ (by norm_num)
        have ih := mapLookup_foldl_bumpFreq rest (bumpFreq m k) k hv2
        rw [ih, hb]
        simp only [if_pos rfl, List.mem_cons, true_or, Option.isSome_some, or_true,
          Option.getD_some, List.count_cons, beq_self_eq_true, if_true, if_pos]
        congr 1
        omega
      · have hv2 : ∀ v, mapLookup (bumpFreq m c) k = some v → v < 4294967296 := by
          intro v hvv
          rw [hb, if_neg hkc] at hvv
          exact hv v hvv
        have ih := mapLookup_foldl_bumpFreq rest (bumpFreq m c) k hv2
        rw [ih, hb, if_neg hkc]
        have hck : ¬ c = k := fun hh => hkc hh.symm
        have hcnt : List.count k (c :: rest) = List.count k rest := by
          simp [List.count_cons, hck]
        rw [hcnt]
        have hiff : (k ∈ c :: rest ∨ (mapLookup m k).isSome = true)
            ↔ (k ∈ rest ∨ (mapLookup m k).isSome = true) := by
          simp [List.mem_cons, hkc]
        rw [if_congr hiff rfl rfl]

theorem charFrequencyMap_lookup (inputText : List Byte) (k : Byte) :
    mapLookup (charFrequencyMap inputText) k =
      (if k = newlineByte then some ((inputText.count newlineByte + 1) % 4294967296)
       else if k ∈ inputText then some (inputText.count k % 4294967296)
       else none) := by
  have hfn : ∀ v, mapLookup ([] : List (Byte × Nat)) newlineByte = some v → v < 4294967296 := by
    intro v hv
    simp [mapLookup] at hv
  have hfnl := mapLookup_foldl_bumpFreq inputText [] newlineByte hfn
  have hb := mapLookup_bumpFreq (inputText.foldl bumpFreq []) newlineByte k
  rw [charFrequencyMap, hb]
  by_cases hk : k = newlineByte
  · subst hk
    rw [if_pos rfl, if_pos rfl, hfnl]
    simp only [mapLookup, Option.isSome_none, Bool.false_eq_true, or_false, Option.getD_none,
      Nat.zero_add]
    by_cases hmem : newlineByte ∈ inputText
    · rw [if_pos hmem]
      simp only [Option.getD_some]
      congr 1
      rw [Nat.mod_add_mod]
    · rw [if_neg hmem]
      have hc : inputText.count newlineByte = 0 := List.count_eq_zero.mpr hmem
      simp [hc]
  · have hnil : ∀ v, mapLookup ([] : List (Byte × Nat)) k = some v → v < 4294967296 := by
      intro v hv
      simp [mapLookup] at hv
    have hf := mapLookup_foldl_bumpFreq inputText [] k hnil
    rw [if_neg hk, if_neg hk, hf]
    simp [mapLookup]

theorem mapLookup_le_sumVals : ∀ (m : List (Byte × Nat)) (k : Byte) (v : Nat),
    mapLookup m k = some v → v ≤ sumVals m
  | [], _, _, h => by simp [mapLookup] at h
  | (k0, v0) :: rest, k, v, h => by
      simp only [mapLookup] at h
      split at h
      · cases h
        simp [sumVals]
      · have hle := mapLookup_le_sumVals rest k v h
        simp only [sumVals, List.map_cons, List.sum_cons] at hle ⊢
        omega

theorem sumVals_bumpFreq : ∀ (m : List (Byte × Nat)) (c : Byte), sumVals m + 1 < 4294967296 →
    sumVals (bumpFreq m c) = sumVals m + 1
  | [], c, _ => by
      simp [bumpFreq, sumVals]
  | (k0, v0) :: rest, c, h => by
      by_cases h0 : k0 = c
      · subst h0
        have hv : v0 + 1 < 4294967296 := by
          simp only [sumVals, List.map_cons, List.sum_cons] at h
          omega
        simp [bumpFreq, sumVals, Nat.mod_eq_of_lt hv]
        omega
      · simp only [bumpFreq, if_neg h0]
        have hrest : sumVals rest + 1 < 4294967296 := by
          simp only [sumVals, List.map_cons, List.sum_cons] at h ⊢
          omega
        have ih := sumVals_bumpFreq rest c hrest
        simp only [sumVals, List.map_cons, List.sum_cons] at ih ⊢
        omega

theorem sumVals_foldl_bumpFreq : ∀ (inputText : List Byte) (m : List (Byte × Nat)),
    sumVals m + inputText.length < 4294967296 →
    sumVals (inputText.foldl bumpFreq m) = sumVals m + inputText.length
  | [], m, _ => by simp
  | c :: rest, m, h => by
      have h1 : sumVals m + 1 < 4294967296 := by
        simp only [List.length_cons] at h
        omega
      have hb := sumVals_bumpFreq m c h1
      have ih := sumVals_foldl_bumpFreq rest (bumpFreq m c) (by
        rw [hb]
        simp only [List.length_cons] at h
        omega)
      rw [List.foldl_cons, ih, hb]
      simp only [List.length_cons]
      omega

theorem sumVals_charFrequencyMap (inputText : List Byte)
    (h : inputText.length + 1 < 4294967296) :
    sumVals (charFrequencyMap inputText) = inputText.length + 1 := by
  have hf := sumVals_foldl_bumpFreq inputText [] (by simp [sumVals]; omega)
  have hf2 : sumVals (inputText.foldl bumpFreq []) = inputText.length := by
    rw [hf]
    simp [sumVals]
  rw [charFrequencyMap, sumVals_bumpFreq _ _ (by rw [hf2]; omega), hf2]

/-! ## Claim theorems: the frequency counter -/

/-- Claim C4 (counterexample): the counts are 32-bit `unsigned` values
and wrap.  On the input consisting of 2^32 - 1 newline bytes, the
stored newline count is (2^32 - 1 + 1) mod 2^32 = 0, not the
occurrence count plus one (and not at least 1) as the claim states. -/
theorem c4_counterexample :
    mapLookup (charFrequencyMap (List.replicate 4294967295 newlineByte)) newlineByte = some 0
  ∧ (List.replicate 4294967295 newlineByte).count newlineByte + 1 ≠ 0 := by
  constructor
  · rw [charFrequencyMap_lookup, if_pos rfl]
    rw [List.count_replicate_self]
  · rw [List.count_replicate_self]
    omega

/-- Claim C4 (amended): as long as the input length plus one stays
below 2^32 (so no 32-bit count can wrap), the frequency table stores
occurrences + 1 (hence at least 1) for the newline, exactly the
occurrence count for every other byte that occurs (and no entry for a
byte that does not), the stored counts sum to the input length plus
one, and the empty input yields exactly the single-entry table
{newline: 1}. -/
theorem c4_frequency_table_amended (inputText : List Byte)
    (h : inputText.length + 1 < 4294967296) :
    mapLookup (charFrequencyMap inputText) newlineByte
      = some (inputText.count newlineByte + 1)
  ∧ (∀ v, mapLookup (charFrequencyMap inputText) newlineByte = some v → 1 ≤ v)
  ∧ (∀ k, k ≠ newlineByte →
        mapLookup (charFrequencyMap inputText) k
          = (if k ∈ inputText then some (inputText.count k) else none))
  ∧ sumVals (charFrequencyMap inputText) = inputText.length + 1
  ∧ (inputText = [] → charFrequencyMap inputText = [(newlineByte, 1)]) := by
  have hnl : mapLookup (charFrequencyMap inputText) newlineByte
      = some (inputText.count newlineByte + 1) := by
    rw [charFrequencyMap_lookup, if_pos rfl]
    have hle := List.count_le_length newlineByte inputText
    rw [Nat.mod_eq_of_lt (by omega)]
  refine ⟨hnl, ?_, ?_, sumVals_charFrequencyMap inputText h, ?_⟩
  · intro v hv
    rw [hnl] at hv
    cases hv
    omega
  · intro k hk
    rw [charFrequencyMap_lookup, if_neg hk]
    by_cases hmem : k ∈ inputText
    · rw [if_pos hmem, if_pos hmem]
      have hle := List.count_le_length k inputText
      rw [Nat.mod_eq_of_lt (by omega)]
    · rw [if_neg hmem, if_neg hmem]
  · intro he
    subst he
    decide

/-- Claim C4 amended witness: for the one-byte input "a" the newline
count is 1 and the counts sum to 2. -/
theorem c4_frequency_table_amended_witness :
    mapLookup (charFrequencyMap [97]) newlineByte = some 1
  ∧ sumVals (charFrequencyMap [97]) = 2 := by
  have h := c4_frequency_table_amended [97] (by norm_num)
  constructor
  · rw [h.1]
    decide
  · rw [h.2.2.2.1]
    decide

/-! ## Lemmas about code generation -/

theorem mapLookup_mapInsert (m : List (Byte × List Bool)) (a : Byte) (b : List Bool) (k : Byte) :
    mapLookup (mapInsert m a b) k = if a = k then some b else mapLookup m k := by
  induction m with
  | nil =>
      simp [mapInsert, mapLookup]
  | cons hd rest ih =>
      obtain ⟨k0, v0⟩ := hd
      by_cases h0 : k0 = a
      · subst h0
        by_cases h : k0 = k
        · subst h
          simp [mapInsert, mapLookup]
        · have h2 : ¬ k0 = k := h
          simp [mapInsert, mapLookup, h2]
      · by_cases h : k0 = k
        · subst h
          have h2 : ¬ a = k0 := fun hh => h0 hh.symm
          simp [mapInsert, mapLookup, h0, h2]
        · simp [mapInsert, mapLookup, h0, h, ih]

theorem mapLookup_foldl_insert (str : List Bool) :
    ∀ (L : List (Byte × List Bool)) (m : List (Byte × List Bool)) (k : Byte) (v : List Bool),
    mapLookup (L.foldl (fun acc e => mapInsert acc e.1 (str ++ e.2)) m) k = some v →
    (∃ e, e ∈ L ∧ e.1 = k ∧ v = str ++ e.2) ∨ mapLookup m k = some v
  | [], _, _, _, h => Or.inr h
  | e0 :: rest, m, k, v, h => by
      rw [List.foldl_cons] at h
      rcases mapLookup_foldl_insert str rest _ k v h with ⟨e, he1, he2, he3⟩ | hm
      · exact Or.inl ⟨e, List.mem_cons_of_mem _ he1, he2, he3⟩
      · rw [mapLookup_mapInsert] at hm
        by_cases h0 : e0.1 = k
        · rw [if_pos h0] at hm
          exact Or.inl ⟨e0, List.mem_cons_self _ _, h0, (Option.some_inj.mp hm).symm⟩
        · rw [if_neg h0] at hm
          exact Or.inr hm

theorem generateHuffmanCodes_eq_foldl (t : CTree) : ∀ (str : List Bool) (m : List (Byte × List Bool)),
    GenerateHuffmanCodes t str m
      = (paths t).foldl (fun acc e => mapInsert acc e.1 (str ++ e.2)) m := by
  induction t with
  | nil =>
      intro str m
      simp [GenerateHuffmanCodes, paths]
  | node c w l r ihl ihr =>
      intro str m
      have hfalse : ∀ (acc : List (Byte × List Bool)) (e : Byte × List Bool),
          mapInsert acc e.1 (str ++ false :: e.2) = mapInsert acc e.1 ((str ++ [false]) ++ e.2) := by
        intro acc e
        rw [List.append_cons]
      have htrue : ∀ (acc : List (Byte × List Bool)) (e : Byte × List Bool),
          mapInsert acc e.1 (str ++ true :: e.2) = mapInsert acc e.1 ((str ++ [true]) ++ e.2) := by
        intro acc e
        rw [List.append_cons]
      show GenerateHuffmanCodes r (str ++ [true])
          (GenerateHuffmanCodes l (str ++ [false])
            (if l = CTree.nil ∧ r = CTree.nil then mapInsert m c str else m)) = _
      rw [ihl, ihr]
      simp only [paths, List.foldl_append, List.foldl_map, hfalse, htrue]
      congr 1
      congr 1
      split
      · simp [List.foldl_cons]
      · simp [List.foldl_nil]

theorem paths_no_mutual_prefixes : ∀ (t : CTree) (x y : Byte × List Bool),
    x ∈ paths t → y ∈ paths t → x.1 ≠ y.1 → ¬ x.2 <+: y.2
  | CTree.nil, x, y, hx, _, _ => by simp [paths] at hx
  | CTree.node c w l r, x, y, hx, hy, hne => by
      simp only [paths] at hx hy
      by_cases hleaf : l = CTree.nil ∧ r = CTree.nil
      · rw [if_pos hleaf, hleaf.1, hleaf.2] at hx hy
        simp only [paths, List.map_nil, List.append_nil] at hx hy
        rw [List.mem_singleton] at hx hy
        exact absurd (by rw [hx, hy]) hne
      · rw [if_neg hleaf, List.nil_append] at hx hy
        rw [List.mem_append] at hx hy
        rcases hx with hx | hx <;> rcases hy with hy | hy <;>
          rw [List.mem_map] at hx hy <;>
          obtain ⟨ex, hex, hx2⟩ := hx <;> obtain ⟨ey, hey, hy2⟩ := hy
        · have hne2 : ex.1 ≠ ey.1 := by
            intro hh
            apply hne
            rw [← hx2, ← hy2, hh]
          have ihp := paths_no_mutual_prefixes l ex ey hex hey hne2
          intro hp
          rw [← hx2, ← hy2] at hp
          simp only [List.cons_prefix_cons] at hp
          exact ihp hp.2
        · intro hp
          rw [← hx2, ← hy2] at hp
          simp only [List.cons_prefix_cons] at hp
          exact Bool.noConfusion hp.1
        · intro hp
          rw [← hx2, ← hy2] at hp
          simp only [List.cons_prefix_cons] at hp
          exact Bool.noConfusion hp.1
        · have hne2 : ex.1 ≠ ey.1 := by
            intro hh
            apply hne
            rw [← hx2, ← hy2, hh]
          have ihp := paths_no_mutual_prefixes r ex ey hex hey hne2
          intro hp
          rw [← hx2, ← hy2] at hp
          simp only [List.cons_prefix_cons] at hp
          exact ihp hp.2

/-! ## Claim theorem: prefix-freeness of generated code tables -/

/-- Claim C5: in the code table generated from any seeding order of any
frequency table, the codewords of two distinct symbols are never
prefixes of one another (each codeword is the path to a distinct leaf
of one binary tree, and paths to distinct leaves diverge). -/
theorem c5_generated_codes_prefix_free (ord : List (Byte × Nat)) (a b : Byte)
    (ca cb : List Bool) (hab : a ≠ b)
    (ha : mapLookup (huffmanCodeMap ord) a = some ca)
    (hb : mapLookup (huffmanCodeMap ord) b = some cb) :
    ¬ ca <+: cb ∧ ¬ cb <+: ca := by
  have hfold := generateHuffmanCodes_eq_foldl (huffmanTree ord) [] []
  rw [huffmanCodeMap, hfold] at ha hb
  rcases mapLookup_foldl_insert [] (paths (huffmanTree ord)) [] a ca ha with
    ⟨ea, hea, hea1, hea2⟩ | hnone
  · rcases mapLookup_foldl_insert [] (paths (huffmanTree ord)) [] b cb hb with
      ⟨eb, heb, heb1, heb2⟩ | hnone
    · rw [List.nil_append] at hea2 heb2
      constructor
      · have hp := paths_no_mutual_prefixes (huffmanTree ord) ea eb hea heb
          (by rw [hea1, heb1]; exact hab)
        rw [← hea2, ← heb2] at hp
        exact hp
      · have hp := paths_no_mutual_prefixes (huffmanTree ord) eb ea heb hea
          (by rw [hea1, heb1]; exact hab.symm)
        rw [← hea2, ← heb2] at hp
        exact hp
    · simp [mapLookup] at hnone
  · simp [mapLookup] at hnone

/-- Claim C5 witness: for the run on input "a" (seed order {a, newline})
the two codewords 0 and 1 are mutually non-prefixed. -/
theorem c5_generated_codes_prefix_free_witness :
    ¬ [false] <+: [true] ∧ ¬ [true] <+: [false] :=
  c5_generated_codes_prefix_free [(97, 1), (10, 1)] 97 10 [false] [true]
    (by decide) (by decide) (by decide)
